import Mathlib

/-!
Verification of the agent-seed controller (src/agent.py) against its
specification. The program's string algorithms are embedded over `List Char`
(mirroring Python string semantics: substring search is leftmost,
`str.replace` rewrites non-overlapping occurrences left to right without
rescanning replacement text), and the per-task retry loop of `main` is
embedded as a step function over an oracle of attempt outcomes.
-/

set_option maxRecDepth 8000

namespace AgentSeed

/-! ## Basic string machinery over lists of characters -/

/-- Boolean prefix test, the shape Python's matching primitives reduce to. -/
def isPre : List Char → List Char → Bool
  | [], _ => true
  | _ :: _, [] => false
  | a :: as, b :: bs => a == b && isPre as bs

/-- Substring occurrence test: Python's `pat in s`. -/
def occursB (pat : List Char) : List Char → Bool
  | [] => isPre pat []
  | c :: rest => isPre pat (c :: rest) || occursB pat rest

theorem isPre_iff (p : List Char) : ∀ l, isPre p l = true ↔ ∃ t, l = p ++ t := by
  induction p with
  | nil => intro l; simp [isPre]
  | cons a as ih =>
    intro l
    cases l with
    | nil => simp [isPre]
    | cons b bs =>
      simp only [isPre, Bool.and_eq_true, beq_iff_eq, ih bs, List.cons_append,
        List.cons.injEq]
      constructor
      · rintro ⟨rfl, t, rfl⟩; exact ⟨t, rfl, rfl⟩
      · rintro ⟨t, rfl, rfl⟩; exact ⟨rfl, t, rfl⟩

theorem isPre_refl_append (p t : List Char) : isPre p (p ++ t) = true :=
  (isPre_iff p (p ++ t)).mpr ⟨t, rfl⟩

theorem occursB_iff (pat : List Char) :
    ∀ l, occursB pat l = true ↔ ∃ x y, l = x ++ pat ++ y := by
  intro l
  induction l with
  | nil =>
    simp only [occursB, isPre_iff]
    constructor
    · rintro ⟨t, ht⟩
      exact ⟨[], t, by simpa using ht⟩
    · rintro ⟨x, y, h⟩
      have hx : x = [] ∧ pat ++ y = [] := by
        constructor
        · cases x with
          | nil => rfl
          | cons c cs => simp at h
        · cases x with
          | nil => simpa using h.symm
          | cons c cs => simp at h
      exact ⟨y, by simp [hx.2]⟩
  | cons c rest ih =>
    simp only [occursB, Bool.or_eq_true, isPre_iff, ih]
    constructor
    · rintro (⟨t, ht⟩ | ⟨x, y, hxy⟩)
      · exact ⟨[], t, by simpa using ht⟩
      · exact ⟨c :: x, y, by simp [hxy]⟩
    · rintro ⟨x, y, hxy⟩
      cases x with
      | nil => exact Or.inl ⟨y, by simpa using hxy⟩
      | cons d ds =>
        right
        refine ⟨ds, y, ?_⟩
        have := hxy
        simp only [List.cons_append] at this
        exact (List.cons.injEq _ _ _ _ ▸ this).2

/-- Occurrence of a pattern in the right part of an append. -/
theorem occursB_append_right (pat a b : List Char) (h : occursB pat b = true) :
    occursB pat (a ++ b) = true := by
  rcases (occursB_iff pat b).mp h with ⟨x, y, rfl⟩
  exact (occursB_iff pat _).mpr ⟨a ++ x, y, by simp⟩

theorem occursB_cons (pat : List Char) (c : Char) (l : List Char)
    (h : occursB pat l = true) : occursB pat (c :: l) = true := by
  simp [occursB, h]

/-- A pattern occurs in any list of which it is an explicit middle part. -/
theorem occursB_here (pat x y : List Char) : occursB pat (x ++ pat ++ y) = true :=
  (occursB_iff pat _).mpr ⟨x, y, rfl⟩

/-- Transfer an occurrence down a sub-pattern: if the searched-for pattern is
itself built around a smaller one, an occurrence of the larger gives one of
the smaller. -/
theorem occursB_of_occursB_wider (small u v l : List Char)
    (h : occursB (u ++ small ++ v) l = true) : occursB small l = true := by
  rcases (occursB_iff _ l).mp h with ⟨x, y, rfl⟩
  exact (occursB_iff small _).mpr ⟨x ++ u, v ++ y, by simp⟩

/-- If the first character of the pattern appears nowhere in `a`, an occurrence
in `a ++ b` is an occurrence in `b`. -/
theorem occursB_append_elim (p0 : Char) (ps a b : List Char) (ha : p0 ∉ a)
    (h : occursB (p0 :: ps) (a ++ b) = true) : occursB (p0 :: ps) b = true := by
  induction a with
  | nil => simpa using h
  | cons c cs ih =>
    have hc : c ≠ p0 := fun hcp => ha (by simp [hcp])
    have hcs : p0 ∉ cs := fun hm => ha (List.mem_cons_of_mem _ hm)
    simp only [List.cons_append, occursB, Bool.or_eq_true] at h
    rcases h with hpre | hrest
    · rw [isPre_iff] at hpre
      rcases hpre with ⟨t, ht⟩
      simp only [List.cons_append, List.cons.injEq] at ht
      exact absurd ht.1 hc
    · exact ih hcs hrest

/-- A prefix survives prepending to the right of nothing: member facts. -/
theorem occursB_mem_of_cons (p0 : Char) (ps l : List Char)
    (h : occursB (p0 :: ps) l = true) : p0 ∈ l := by
  rcases (occursB_iff _ l).mp h with ⟨x, y, rfl⟩
  simp

/-! ## Version registry: `get_next_version` (src/agent.py lines 61-81)

The code lists the working directory, keeps names that start with
`agent_v` and end with `.py`, then searches each kept name for the regular
expression `agent_v(\d+)\.py` (leftmost match, greedy digits) and returns
one more than the maximum captured number, or 1 when nothing was captured.
The filesystem state is embedded as the list of file names in the working
directory. -/

/-- Decimal value of a digit run. -/
def digitsVal (ds : List Char) : Nat :=
  ds.foldl (fun acc c => acc * 10 + (c.toNat - '0'.toNat)) 0

/-- Try to match `agent_v(\d+)\.py` at the head of the character list:
the literal `agent_v`, then a maximal nonempty digit run, then `.py`. -/
def tryMatchAgentV (l : List Char) : Option Nat :=
  if isPre "agent_v".toList l then
    let rest := l.drop 7
    let ds := rest.takeWhile Char.isDigit
    if ds.isEmpty then none
    else if isPre ".py".toList (rest.dropWhile Char.isDigit) then some (digitsVal ds)
    else none
  else none

/-- Leftmost search for `agent_v(\d+)\.py`, the semantics of `re.search`. -/
def searchAgentV : List Char → Option Nat
  | [] => none
  | c :: rest =>
    match tryMatchAgentV (c :: rest) with
    | some n => some n
    | none => searchAgentV rest

/-- The prefilter of line 71: `f.startswith('agent_v') and f.endswith('.py')`. -/
def keepsFile (f : List Char) : Bool :=
  isPre "agent_v".toList f && isPre ".py".toList.reverse f.reverse

/-- Maximum of a list of naturals, 0 for the empty list (all versions are
nonnegative, so this coincides with Python's `max` on nonempty input). -/
def maxNat (l : List Nat) : Nat := l.foldl Nat.max 0

/-- `get_next_version` of src/agent.py, as a function of the directory
listing. -/
def get_next_version (files : List (List Char)) : Nat :=
  let existing := files.filter keepsFile
  if existing.isEmpty then 1
  else
    let versions := existing.filterMap searchAgentV
    if versions.isEmpty then 1 else maxNat versions + 1

/-- Modelled from the spec's words for the comparison in C2: a file name
that *is* (entirely) of the form `agent_v<digits>.py`, and its version. -/
def specFullMatch (f : List Char) : Option Nat :=
  if isPre "agent_v".toList f then
    let rest := f.drop 7
    let ds := rest.takeWhile Char.isDigit
    if ds.isEmpty then none
    else if rest.dropWhile Char.isDigit = ".py".toList then some (digitsVal ds)
    else none
  else none

/-- Modelled from the spec's words for the comparison in C2: one greater than
the maximum version among file names exactly matching the artifact naming
pattern, or 1 when there is none. -/
def specNextVersion (files : List (List Char)) : Nat :=
  let versions := files.filterMap specFullMatch
  if versions.isEmpty then 1 else maxNat versions + 1

theorem foldl_max_eq_or_mem :
    ∀ (l : List Nat) (a : Nat), l.foldl Nat.max a = a ∨ l.foldl Nat.max a ∈ l := by
  intro l
  induction l with
  | nil => intro a; left; rfl
  | cons b t ih =>
    intro a
    rcases ih (Nat.max a b) with h | h
    · have hm : Nat.max a b = a ∨ Nat.max a b = b := by
        rcases Nat.le_total a b with hab | hba
        · right; exact Nat.max_eq_right hab
        · left; exact Nat.max_eq_left hba
      rcases hm with hm | hm
      · left; simpa [List.foldl, hm] using h
      · right; simp only [List.foldl] at h ⊢; rw [h, hm]; exact List.mem_cons_self _ _
    · right; exact List.mem_cons_of_mem _ h

theorem le_foldl_max : ∀ (l : List Nat) (a : Nat), a ≤ l.foldl Nat.max a := by
  intro l
  induction l with
  | nil => intro a; exact Nat.le_refl a
  | cons b t ih =>
    intro a
    exact Nat.le_trans (Nat.le_max_left a b) (ih (Nat.max a b))

theorem mem_le_foldl_max :
    ∀ (l : List Nat) (a v : Nat), v ∈ l → v ≤ l.foldl Nat.max a := by
  intro l
  induction l with
  | nil => intro a v h; cases h
  | cons b t ih =>
    intro a v h
    rcases List.mem_cons.mp h with rfl | h
    · exact Nat.le_trans (Nat.le_max_right a v) (le_foldl_max t (Nat.max a v))
    · exact ih (Nat.max a b) v h

theorem maxNat_mem (l : List Nat) (h : l ≠ []) : maxNat l ∈ l := by
  rcases foldl_max_eq_or_mem l 0 with h0 | hm
  · cases l with
    | nil => exact absurd rfl h
    | cons b t =>
      have hb : b ≤ maxNat (b :: t) := mem_le_foldl_max _ 0 b (List.mem_cons_self _ _)
      have : maxNat (b :: t) = 0 := h0
      have hb0 : b = 0 := Nat.le_antisymm (this ▸ hb) (Nat.zero_le b)
      rw [maxNat, h0, ← hb0]; exact List.mem_cons_self _ _
  · exact hm

theorem le_maxNat (l : List Nat) (v : Nat) (h : v ∈ l) : v ≤ maxNat l :=
  mem_le_foldl_max l 0 v h

theorem takeWhile_dropWhile_append (p : Char → Bool) :
    ∀ (ds l : List Char), (∀ c ∈ ds, p c = true) →
      (∀ h0, l.head? = some h0 → p h0 = false) →
      (ds ++ l).takeWhile p = ds ∧ (ds ++ l).dropWhile p = l := by
  intro ds
  induction ds with
  | nil =>
    intro l _ hl
    cases l with
    | nil => exact ⟨rfl, rfl⟩
    | cons h0 t =>
      have := hl h0 rfl
      simp [List.takeWhile, List.dropWhile, this]
  | cons d ds' ih =>
    intro l hds hl
    have hd : p d = true := hds d (List.mem_cons_self _ _)
    have hds' : ∀ c ∈ ds', p c = true := fun c hc => hds c (List.mem_cons_of_mem _ hc)
    have := ih l hds' hl
    simp [List.takeWhile, List.dropWhile, hd, this.1, this.2]

/-- A full artifact name passes the prefilter of line 71 and the regex search
of line 77 captures exactly its version. -/
theorem specFullMatch_search (f : List Char) (v : Nat)
    (h : specFullMatch f = some v) :
    keepsFile f = true ∧ searchAgentV f = some v := by
  unfold specFullMatch at h
  by_cases hpre : isPre "agent_v".toList f = true
  · rw [if_pos hpre] at h
    by_cases hne : ((f.drop 7).takeWhile Char.isDigit).isEmpty = true
    · rw [if_pos hne] at h; cases h
    · rw [if_neg hne] at h
      by_cases hdw : (f.drop 7).dropWhile Char.isDigit = ".py".toList
      · rw [if_pos hdw] at h
        have hv : digitsVal ((f.drop 7).takeWhile Char.isDigit) = v := by
          simpa using h
        rcases (isPre_iff _ f).mp hpre with ⟨t, hf⟩
        have hlen : ("agent_v".toList).length = 7 := by decide
        have ht : f.drop 7 = t := by
          rw [hf, ← hlen, List.drop_left]
        have hsplit : f.drop 7 =
            (f.drop 7).takeWhile Char.isDigit ++ ".py".toList := by
          conv_lhs => rw [← List.takeWhile_append_dropWhile (p := Char.isDigit)
            (l := f.drop 7)]
          rw [hdw]
        have hf2 : f = "agent_v".toList ++
            ((f.drop 7).takeWhile Char.isDigit ++ ".py".toList) := by
          conv_lhs => rw [hf, ← ht, hsplit]
        have hfne : f ≠ [] := by
          rw [hf]
          intro h0
          rcases List.append_eq_nil.mp h0 with ⟨h1, _⟩
          exact absurd h1 (by decide)
        constructor
        · unfold keepsFile
          refine Bool.and_eq_true_iff.mpr ⟨hpre, ?_⟩
          apply (isPre_iff _ _).mpr
          refine ⟨((f.drop 7).takeWhile Char.isDigit).reverse ++
            ("agent_v".toList).reverse, ?_⟩
          conv_lhs => rw [hf2]
          simp [List.reverse_append]
        · have htm : tryMatchAgentV f = some v := by
            unfold tryMatchAgentV
            rw [if_pos hpre, if_neg hne, if_pos ?_, hv]
            rw [hdw]
            exact (isPre_iff _ _).mpr ⟨[], by simp⟩
          cases hf3 : f with
          | nil => exact absurd hf3 hfne
          | cons c rest =>
            rw [hf3] at htm
            unfold searchAgentV
            rw [htm]
      · rw [if_neg hdw] at h; cases h
  · rw [if_neg hpre] at h; cases h

/-- The versions the code extracts during one call. -/
def extractedVersions (files : List (List Char)) : List Nat :=
  (files.filter keepsFile).filterMap searchAgentV

/-- C2 (amended): the next version is one greater than the maximum version
extracted by searching for the pattern inside file names that start with
agent_v and end with .py, and 1 when nothing is extracted; every file name
exactly of the artifact form agent_v(digits).py contributes its version, so
the returned number is strictly greater than every full-match version on
disk (the registry never reissues one); the embedding is a pure function of
the directory listing. -/
theorem get_next_version_correct (files : List (List Char)) :
    (extractedVersions files = [] → get_next_version files = 1) ∧
    (extractedVersions files ≠ [] →
      get_next_version files = maxNat (extractedVersions files) + 1 ∧
      maxNat (extractedVersions files) ∈ extractedVersions files ∧
      ∀ v ∈ extractedVersions files, v < get_next_version files) ∧
    (∀ f ∈ files, ∀ v, specFullMatch f = some v → v < get_next_version files) := by
  refine ⟨?_, ?_, ?_⟩
  · intro h
    unfold get_next_version
    by_cases he : (files.filter keepsFile).isEmpty = true
    · rw [if_pos he]
    · rw [if_neg he]
      have : ((files.filter keepsFile).filterMap searchAgentV).isEmpty = true := by
        rw [show (files.filter keepsFile).filterMap searchAgentV =
          extractedVersions files from rfl, h]; rfl
      rw [if_pos this]
  · intro h
    have hvs : ((files.filter keepsFile).filterMap searchAgentV) =
        extractedVersions files := rfl
    have hne : ((files.filter keepsFile).filterMap searchAgentV).isEmpty ≠ true := by
      rw [hvs]; simpa [List.isEmpty_iff] using h
    have hfe : (files.filter keepsFile).isEmpty ≠ true := by
      intro hfe
      apply hne
      rw [List.isEmpty_iff] at hfe ⊢
      rw [hfe]; rfl
    have hgv : get_next_version files = maxNat (extractedVersions files) + 1 := by
      unfold get_next_version
      rw [if_neg hfe, if_neg hne, hvs]
    refine ⟨hgv, maxNat_mem _ h, ?_⟩
    intro v hv
    rw [hgv]
    exact Nat.lt_succ_of_le (le_maxNat _ v hv)
  · intro f hf v hspec
    have hks := specFullMatch_search f v hspec
    have hmem : v ∈ extractedVersions files := by
      unfold extractedVersions
      exact List.mem_filterMap.mpr ⟨f, List.mem_filter.mpr ⟨hf, hks.1⟩, hks.2⟩
    have hne : extractedVersions files ≠ [] := by
      intro h0; rw [h0] at hmem; cases hmem
    have hvs : ((files.filter keepsFile).filterMap searchAgentV) =
        extractedVersions files := rfl
    have hne2 : ((files.filter keepsFile).filterMap searchAgentV).isEmpty ≠ true := by
      rw [hvs]; simpa [List.isEmpty_iff] using hne
    have hfe : (files.filter keepsFile).isEmpty ≠ true := by
      intro hfe
      apply hne2
      rw [List.isEmpty_iff] at hfe ⊢
      rw [hfe]; rfl
    have hgv : get_next_version files = maxNat (extractedVersions files) + 1 := by
      unfold get_next_version
      rw [if_neg hfe, if_neg hne2, hvs]
    rw [hgv]
    exact Nat.lt_succ_of_le (le_maxNat _ v hmem)

/-- C2 counterexample: on the directory state holding the single file
agent_v5.py.py — which starts with agent_v, ends with .py, but is not itself
of the artifact naming form — the code returns 6 (the regex search finds
agent_v5.py inside the name), while the spec's reading (one greater than the
maximum over file names matching the fixed naming pattern, 1 if none) gives 1. -/
theorem get_next_version_cex :
    get_next_version ["agent_v5.py.py".toList] = 6 ∧
    specNextVersion ["agent_v5.py.py".toList] = 1 ∧
    get_next_version ["agent_v5.py.py".toList] ≠
      specNextVersion ["agent_v5.py.py".toList] := by
  refine ⟨by decide, by decide, by decide⟩

/-! ## Version validator: `test_new_version` (src/agent.py lines 238-258)

The child process invocation `subprocess.run([python, agent_path, "--test"],
timeout=10)` either returns with an exit code, exceeds its timeout
(`TimeoutExpired`), or raises some other execution error; the `except`
clause catches both `TimeoutExpired` and `Exception`. The embedding reduces
the child invocation to its observable outcome. -/

inductive ProcOutcome
  | exited (code : Int)
  | timedOut
  | raised (msg : String)
deriving DecidableEq

/-- `test_new_version` of src/agent.py as a function of the child-process
outcome: `result.returncode == 0`, with every caught execution error
(timeout included) mapped to `False`. -/
def test_new_version : ProcOutcome → Bool
  | .exited code => code == 0
  | .timedOut => false
  | .raised _ => false

/-- C3: the validator returns true exactly when the self-check child exits
with code 0 within its timeout; a non-zero exit, a timeout, or a raised
execution error yields false. The embedding is a total boolean function, so
no exception escapes the contract. -/
theorem test_new_version_correct (r : ProcOutcome) :
    test_new_version r = true ↔ r = ProcOutcome.exited 0 := by
  cases r with
  | exited code =>
    simp only [test_new_version, beq_iff_eq]
    constructor
    · intro h; rw [h]
    · intro h; cases h; rfl
  | timedOut => simp [test_new_version]
  | raised msg => simp [test_new_version]

/-! ## Startup: self-check flag and environment validation
(src/agent.py lines 325-338) -/

structure EnvConfig where
  apiKey : Option String
  githubToken : Option String
  repo : Option String

/-- Python truthiness of a possibly-missing environment string: `None` and
the empty string are falsy. -/
def truthy : Option String → Bool
  | none => false
  | some s => !(s == "")

inductive StartupResult
  | exitPrint (output : List String) (code : Nat)
  | enterLoop
deriving DecidableEq

/-- The remediation hint printed when required environment values are
missing (lines 332-337). -/
def missingEnvMessage : List String :=
  ["Error: Missing required environment variables",
   "Required: OPENAI_API_KEY, GITHUB_TOKEN, REPO",
   "Create .env file with:",
   "  OPENAI_API_KEY=sk-...",
   "  GITHUB_TOKEN=ghp_...",
   "  REPO=username/repo-name"]

/-- The front of `main`: `--test` is handled first (print OK, exit 0), then
the three required environment values are validated (`not all([...])` means
any missing or empty value is fatal with exit code 1). -/
def mainStartup (argv : List String) (env : EnvConfig) : StartupResult :=
  if argv.contains "--test" then .exitPrint ["OK"] 0
  else if !(truthy env.apiKey && truthy env.githubToken && truthy env.repo) then
    .exitPrint missingEnvMessage 1
  else .enterLoop

/-- C8: with the self-check flag the program prints the fixed token OK and
exits 0 before environment validation, for every environment (missing
values included); without the flag, a missing (or empty) value among the
three required ones exits 1 with the printed remediation hint. -/
theorem mainStartup_correct (argv : List String) (env : EnvConfig) :
    (argv.contains "--test" = true →
      mainStartup argv env = StartupResult.exitPrint ["OK"] 0) ∧
    (argv.contains "--test" = false →
      (truthy env.apiKey && truthy env.githubToken && truthy env.repo) = false →
      mainStartup argv env = StartupResult.exitPrint missingEnvMessage 1) := by
  constructor
  · intro h; unfold mainStartup; rw [h]; simp
  · intro h hmiss; unfold mainStartup; rw [h, hmiss]; simp

/-! ## Script extraction from the generator response
(src/agent.py lines 180-188)

The response text is scanned for a bash-tagged markdown fence first
(`"```bash" in script`), then a generic fence; the text between the first
such fence opener and the next fence marker is stripped of surrounding
whitespace. With no fence, the raw text is returned unchanged. The Python
composite `s.split(tag)[1].split(fence)[0]` is the text after the first
occurrence of the tag, cut at the first following fence marker; the
embedding computes exactly that. -/

def takeBeforeFirst (pat : List Char) : List Char → List Char
  | [] => []
  | c :: rest =>
    if isPre pat (c :: rest) then [] else c :: takeBeforeFirst pat rest

def dropAfterFirst (pat : List Char) : List Char → List Char
  | [] => []
  | c :: rest =>
    if isPre pat (c :: rest) then (c :: rest).drop pat.length
    else dropAfterFirst pat rest

/-- Python `str.strip()`: drop whitespace from both ends. -/
def pyStrip (l : List Char) : List Char :=
  ((l.dropWhile Char.isWhitespace).reverse.dropWhile Char.isWhitespace).reverse

/-- The extraction step of `generate_evolution_script`. -/
def extract_script (s : List Char) : List Char :=
  if occursB "```bash".toList s then
    pyStrip (takeBeforeFirst "```".toList (dropAfterFirst "```bash".toList s))
  else if occursB "```".toList s then
    pyStrip (takeBeforeFirst "```".toList (dropAfterFirst "```".toList s))
  else s

theorem dropAfterFirst_at (p0 : Char) (ps : List Char) :
    ∀ (a y : List Char), p0 ∉ a →
      dropAfterFirst (p0 :: ps) (a ++ ((p0 :: ps) ++ y)) = y := by
  intro a
  induction a with
  | nil =>
    intro y _
    simp only [List.nil_append, List.cons_append]
    rw [dropAfterFirst]
    have hp : isPre (p0 :: ps) (p0 :: (ps ++ y)) = true := by
      have := isPre_refl_append (p0 :: ps) y
      simpa [List.cons_append] using this
    rw [if_pos hp]
    have h2 := List.drop_left (p0 :: ps) y
    simp only [List.cons_append] at h2 ⊢
    exact h2
  | cons c cs ih =>
    intro y ha
    have hc : c ≠ p0 := fun hcp => ha (by simp [hcp])
    have hcs : p0 ∉ cs := fun hm => ha (List.mem_cons_of_mem _ hm)
    simp only [List.cons_append]
    rw [dropAfterFirst]
    have hnp : ¬ isPre (p0 :: ps) (c :: (cs ++ (p0 :: (ps ++ y)))) = true := by
      intro hp
      rcases (isPre_iff _ _).mp hp with ⟨t, ht⟩
      simp only [List.cons_append, List.cons.injEq] at ht
      exact hc ht.1
    rw [if_neg hnp]
    have := ih y hcs
    simpa [List.cons_append] using this

theorem takeBeforeFirst_at (p0 : Char) (ps : List Char) :
    ∀ (b y : List Char), p0 ∉ b →
      takeBeforeFirst (p0 :: ps) (b ++ ((p0 :: ps) ++ y)) = b := by
  intro b
  induction b with
  | nil =>
    intro y _
    simp only [List.nil_append, List.cons_append]
    rw [takeBeforeFirst]
    have hp : isPre (p0 :: ps) (p0 :: (ps ++ y)) = true := by
      have := isPre_refl_append (p0 :: ps) y
      simpa [List.cons_append] using this
    rw [if_pos hp]
  | cons c cs ih =>
    intro y hb
    have hc : c ≠ p0 := fun hcp => hb (by simp [hcp])
    have hcs : p0 ∉ cs := fun hm => hb (List.mem_cons_of_mem _ hm)
    simp only [List.cons_append]
    rw [takeBeforeFirst]
    have hnp : ¬ isPre (p0 :: ps) (c :: (cs ++ (p0 :: (ps ++ y)))) = true := by
      intro hp
      rcases (isPre_iff _ _).mp hp with ⟨t, ht⟩
      simp only [List.cons_append, List.cons.injEq] at ht
      exact hc ht.1
    rw [if_neg hnp]
    have := ih y hcs
    simp only [List.cons_append] at this
    rw [this]

/-- C9: extraction tries the bash-tagged fence first, then a generic fence,
then falls back to the raw text. For a response framing the script between
the first bash fence and the next fence marker, the stripped inner text is
returned; same for a generic fence when no bash fence exists; with no fence
at all the raw text is returned unchanged, so extraction never fails for
fence absence. -/
theorem extract_script_correct :
    (∀ a b c : List Char, '`' ∉ a → '`' ∉ b →
      extract_script (a ++ "```bash".toList ++ b ++ "```".toList ++ c) =
        pyStrip b) ∧
    (∀ a b c : List Char, '`' ∉ a → '`' ∉ b →
      occursB "```bash".toList
        (a ++ "```".toList ++ b ++ "```".toList ++ c) = false →
      extract_script (a ++ "```".toList ++ b ++ "```".toList ++ c) =
        pyStrip b) ∧
    (∀ s : List Char, occursB "```".toList s = false → extract_script s = s) := by
  have hbash : "```bash".toList = '`' :: "``bash".toList := by decide
  have htick : "```".toList = '`' :: "``".toList := by decide
  refine ⟨?_, ?_, ?_⟩
  · intro a b c ha hb
    have h1 : occursB "```bash".toList
        (a ++ "```bash".toList ++ b ++ "```".toList ++ c) = true := by
      have := occursB_here "```bash".toList a (b ++ "```".toList ++ c)
      simpa [List.append_assoc] using this
    unfold extract_script
    rw [if_pos h1]
    have h2 : dropAfterFirst "```bash".toList
        (a ++ "```bash".toList ++ b ++ "```".toList ++ c) =
        b ++ "```".toList ++ c := by
      have := dropAfterFirst_at '`' "``bash".toList a
        (b ++ "```".toList ++ c) ha
      rw [← hbash] at this
      calc dropAfterFirst "```bash".toList
            (a ++ "```bash".toList ++ b ++ "```".toList ++ c)
          = dropAfterFirst "```bash".toList
            (a ++ ("```bash".toList ++ (b ++ "```".toList ++ c))) := by
            simp [List.append_assoc]
        _ = b ++ "```".toList ++ c := this
    rw [h2]
    have h3 : takeBeforeFirst "```".toList (b ++ "```".toList ++ c) = b := by
      have := takeBeforeFirst_at '`' "``".toList b c hb
      rw [← htick] at this
      calc takeBeforeFirst "```".toList (b ++ "```".toList ++ c)
          = takeBeforeFirst "```".toList (b ++ ("```".toList ++ c)) := by
            simp [List.append_assoc]
        _ = b := this
    rw [h3]
  · intro a b c ha hb hnobash
    have h1 : occursB "```".toList
        (a ++ "```".toList ++ b ++ "```".toList ++ c) = true := by
      have := occursB_here "```".toList a (b ++ "```".toList ++ c)
      simpa [List.append_assoc] using this
    unfold extract_script
    have hno : ¬ occursB "```bash".toList
        (a ++ "```".toList ++ b ++ "```".toList ++ c) = true := by
      rw [hnobash]; exact Bool.false_ne_true
    rw [if_neg hno, if_pos h1]
    have h2 : dropAfterFirst "```".toList
        (a ++ "```".toList ++ b ++ "```".toList ++ c) =
        b ++ "```".toList ++ c := by
      have := dropAfterFirst_at '`' "``".toList a (b ++ "```".toList ++ c) ha
      rw [← htick] at this
      calc dropAfterFirst "```".toList
            (a ++ "```".toList ++ b ++ "```".toList ++ c)
          = dropAfterFirst "```".toList
            (a ++ ("```".toList ++ (b ++ "```".toList ++ c))) := by
            simp [List.append_assoc]
        _ = b ++ "```".toList ++ c := this
    rw [h2]
    have h3 : takeBeforeFirst "```".toList (b ++ "```".toList ++ c) = b := by
      have := takeBeforeFirst_at '`' "``".toList b c hb
      rw [← htick] at this
      calc takeBeforeFirst "```".toList (b ++ "```".toList ++ c)
          = takeBeforeFirst "```".toList (b ++ ("```".toList ++ c)) := by
            simp [List.append_assoc]
        _ = b := this
    rw [h3]
  · intro s hs
    have hnobash : occursB "```bash".toList s = false := by
      by_contra hx
      have hx2 : occursB "```bash".toList s = true := by
        revert hx; cases occursB "```bash".toList s <;> simp
      have : occursB "```".toList s = true := by
        apply occursB_of_occursB_wider "```".toList [] "bash".toList
        have heq : ([] : List Char) ++ "```".toList ++ "bash".toList =
            "```bash".toList := by decide
        rw [heq]
        exact hx2
      rw [this] at hs; cases hs
    unfold extract_script
    have hno1 : ¬ occursB "```bash".toList s = true := by
      rw [hnobash]; exact Bool.false_ne_true
    have hno2 : ¬ occursB "```".toList s = true := by
      rw [hs]; exact Bool.false_ne_true
    rw [if_neg hno1, if_neg hno2]

/-! ## The per-task retry loop of `main` (src/agent.py lines 343-466)

One attempt is `generate_evolution_script` (may raise), `create_new_version`
(may raise), `test_new_version` (returns a boolean, never raises), then on a
passing test `create_pull_request`, the success comment, the issue close and
`os.execv` (any of which may raise before the `execv` replaces the
process). The environment's behaviour at each attempt is an oracle
`out : Nat → Outcome`; the script text produced by a successful generation
at attempt `a` is `gen a`. The `try` of lines 373-439 together with the
`except` of lines 440-466 become the step function `runFrom`: a clean test
failure and every caught exception store `previous_attempt` and either move
to the next attempt or, at attempt `max_retries`, post the give-up comment
and add the agent-failed label. -/

inductive Outcome
  | genError (msg : String)
  | buildError (msg : String)
  | testFail
  | publishError (msg : String)
  | success
deriving DecidableEq

/-- The `previous_attempt` dictionary of lines 416-419 and 444-447. -/
structure AttemptCtx where
  script : String
  error : String
deriving DecidableEq

/-- The fixed error summary stored on a clean test failure (line 418). -/
def failedTestError : String := "New version failed --test flag (exit code non-zero)"

inductive Event
  | generate (attempt : Nat) (prev : Option AttemptCtx)
  | build (attempt : Nat) (scriptFile : String) (artifact : String)
  | runTest (attempt : Nat) (artifact : String)
  | publish (attempt : Nat) (branch : String)
  | commentSuccess (attempt : Nat)
  | closeIssue
  | execv (artifact : String)
  | commentGiveUp (lastError : Option String)
  | addLabel (label : String)
deriving DecidableEq

inductive TaskResult
  | replaced (attempt : Nat) (artifact : String)
  | gaveUp (finalError : String)
deriving DecidableEq

/-- The evolution-script file name of line 207. -/
def scriptFileName (version : Nat) : String := "evolve_v" ++ toString version ++ ".sh"

/-- The artifact path of line 235. -/
def artifactName (version : Nat) : String := "agent_v" ++ toString version ++ ".py"

/-- The branch name of line 393. -/
def branchName (version : Nat) : String := "evolution-v" ++ toString version

/-- The give-up path (lines 421-438 resp. 449-466): a give-up comment (with
the last error interpolated on the exception path, without it on the clean
test-failure path) and the agent-failed label. -/
def giveUpEvents (lastError : Option String) : List Event :=
  [Event.commentGiveUp lastError, Event.addLabel "agent-failed"]

/-- The attempt loop of lines 369-466, from attempt `a` with `fuel`
remaining loop iterations, `prev` the `previous_attempt` value and
`lastScript` the value of `evolution_script` still in scope from an earlier
attempt (for the `'evolution_script' in locals()` test of line 445). -/
def runFrom (gen : Nat → String) (out : Nat → Outcome) (version maxRetries : Nat) :
    Nat → Nat → Option AttemptCtx → Option String → List Event × TaskResult
  | 0, _, prev, _ =>
    ([], TaskResult.gaveUp (match prev with | some p => p.error | none => ""))
  | fuel + 1, a, prev, lastScript =>
    match out a with
    | Outcome.genError m =>
      let prev2 : Option AttemptCtx := some ⟨lastScript.getD "N/A", m⟩
      if a = maxRetries then
        ([Event.generate a prev] ++ giveUpEvents (some m), TaskResult.gaveUp m)
      else
        let r := runFrom gen out version maxRetries fuel (a + 1) prev2 lastScript
        (Event.generate a prev :: r.1, r.2)
    | Outcome.buildError m =>
      let prev2 : Option AttemptCtx := some ⟨gen a, m⟩
      let evs := [Event.generate a prev,
        Event.build a (scriptFileName version) (artifactName version)]
      if a = maxRetries then
        (evs ++ giveUpEvents (some m), TaskResult.gaveUp m)
      else
        let r := runFrom gen out version maxRetries fuel (a + 1) prev2 (some (gen a))
        (evs ++ r.1, r.2)
    | Outcome.testFail =>
      let prev2 : Option AttemptCtx := some ⟨gen a, failedTestError⟩
      let evs := [Event.generate a prev,
        Event.build a (scriptFileName version) (artifactName version),
        Event.runTest a (artifactName version)]
      if a = maxRetries then
        (evs ++ giveUpEvents none, TaskResult.gaveUp failedTestError)
      else
        let r := runFrom gen out version maxRetries fuel (a + 1) prev2 (some (gen a))
        (evs ++ r.1, r.2)
    | Outcome.publishError m =>
      let prev2 : Option AttemptCtx := some ⟨gen a, m⟩
      let evs := [Event.generate a prev,
        Event.build a (scriptFileName version) (artifactName version),
        Event.runTest a (artifactName version),
        Event.publish a (branchName version)]
      if a = maxRetries then
        (evs ++ giveUpEvents (some m), TaskResult.gaveUp m)
      else
        let r := runFrom gen out version maxRetries fuel (a + 1) prev2 (some (gen a))
        (evs ++ r.1, r.2)
    | Outcome.success =>
      ([Event.generate a prev,
        Event.build a (scriptFileName version) (artifactName version),
        Event.runTest a (artifactName version),
        Event.publish a (branchName version),
        Event.commentSuccess a, Event.closeIssue,
        Event.execv (artifactName version)],
       TaskResult.replaced a (artifactName version))

/-- One task's processing: `max_retries = 3` (line 369), attempts counted
from 1, no previous attempt and no script in scope at the start. -/
def processTask (gen : Nat → String) (out : Nat → Outcome) (version : Nat) :
    List Event × TaskResult :=
  runFrom gen out version 3 3 1 none none

/-- Label handling for one issue (lines 352-367) around the attempt loop:
skip when labeled agent-failed without agent-retry; when labeled
agent-retry, delete both agent-failed and agent-retry before reprocessing;
the give-up path later adds agent-failed back (lines 434-436, 462-464). -/
def processIssue (labels : List String) (gen : Nat → String) (out : Nat → Outcome)
    (version : Nat) : Option (List Event × TaskResult) × List String :=
  if labels.contains "agent-failed" && !(labels.contains "agent-retry") then
    (none, labels)
  else
    let cleared := if labels.contains "agent-retry" then
        labels.filter (fun l => !(l == "agent-failed") && !(l == "agent-retry"))
      else labels
    let r := processTask gen out version
    match r.2 with
    | TaskResult.gaveUp _ => (some r, cleared ++ ["agent-failed"])
    | TaskResult.replaced _ _ => (some r, cleared)

/-- One issue of a scan: its labels and the environment's behaviour for its
attempts. -/
structure IssueSpec where
  labels : List String
  gen : Nat → String
  out : Nat → Outcome

/-- The issues of one scan, processed in order; a success replaces the
process (`os.execv`, line 409), so the remaining issues of the scan are
abandoned. -/
def runIssues (gen0 : Nat) : List IssueSpec → List (Option (List Event × TaskResult) × List String)
  | [] => []
  | i :: rest =>
    let r := processIssue i.labels i.gen i.out gen0
    match r.1 with
    | some p =>
      match p.2 with
      | TaskResult.replaced _ _ => [r]
      | TaskResult.gaveUp _ => r :: runIssues gen0 rest
    | none => r :: runIssues gen0 rest

/-- One polling scan (lines 343-352): the version number is computed once,
from the directory listing at scan start, before the issues are iterated. -/
def runScan (files : List (List Char)) (issues : List IssueSpec) :
    List (Option (List Event × TaskResult) × List String) :=
  runIssues (get_next_version files) issues

/-! ## Helper counters and block shapes for the retry-loop theorems -/

def genCount : List Event → Nat
  | [] => 0
  | Event.generate _ _ :: r => genCount r + 1
  | _ :: r => genCount r

def buildCount : List Event → Nat
  | [] => 0
  | Event.build _ _ _ :: r => buildCount r + 1
  | _ :: r => buildCount r

def testCount : List Event → Nat
  | [] => 0
  | Event.runTest _ _ :: r => testCount r + 1
  | _ :: r => testCount r

/-- The events of one failing attempt `i` whose test failed cleanly, in
their order; attempt 1 has no previous context, attempt `i > 1` carries the
script of attempt `i - 1` and the fixed test-failure summary. -/
def failBlockTest (gen : Nat → String) (version i : Nat) : List Event :=
  [Event.generate i (if i = 1 then none else some ⟨gen (i - 1), failedTestError⟩),
   Event.build i (scriptFileName version) (artifactName version),
   Event.runTest i (artifactName version)]

/-- The events of the succeeding attempt `i`. -/
def successBlock (gen : Nat → String) (version i : Nat) : List Event :=
  [Event.generate i (if i = 1 then none else some ⟨gen (i - 1), failedTestError⟩),
   Event.build i (scriptFileName version) (artifactName version),
   Event.runTest i (artifactName version),
   Event.publish i (branchName version),
   Event.commentSuccess i, Event.closeIssue,
   Event.execv (artifactName version)]

/-- C1: a task whose generate/build/validate sequence fails cleanly on its
first k attempts (k below max_retries = 3) and succeeds on attempt k + 1
performs exactly k + 1 generate/build/validate cycles, strictly in attempt
order, and reports success at attempt index k + 1; when every attempt
fails, exactly max_retries cycles run and the give-up path follows. The
trace equality shows each attempt's cycle concluded before the next
attempt's events begin. -/
theorem retry_controller_correct (gen : Nat → String) (out : Nat → Outcome)
    (version k : Nat) :
    (k < 3 → (∀ i, 1 ≤ i → i ≤ k → out i = Outcome.testFail) →
      out (k + 1) = Outcome.success →
      processTask gen out version =
        (((List.range k).map (fun j => failBlockTest gen version (j + 1))).flatten ++
          successBlock gen version (k + 1),
         TaskResult.replaced (k + 1) (artifactName version)) ∧
      genCount (processTask gen out version).1 = k + 1 ∧
      buildCount (processTask gen out version).1 = k + 1 ∧
      testCount (processTask gen out version).1 = k + 1) ∧
    ((∀ i, 1 ≤ i → i ≤ 3 → out i = Outcome.testFail) →
      processTask gen out version =
        (((List.range 3).map (fun j => failBlockTest gen version (j + 1))).flatten ++
          giveUpEvents none,
         TaskResult.gaveUp failedTestError) ∧
      genCount (processTask gen out version).1 = 3 ∧
      buildCount (processTask gen out version).1 = 3 ∧
      testCount (processTask gen out version).1 = 3) := by
  constructor
  · intro hk hfail hsucc
    interval_cases k
    · have h1 : out 1 = Outcome.success := hsucc
      refine ⟨?_, ?_, ?_, ?_⟩ <;>
        simp [processTask, runFrom, h1, failBlockTest, successBlock,
          genCount, buildCount, testCount, List.range_succ]
    · have h1 : out 1 = Outcome.testFail := hfail 1 (by norm_num) (by norm_num)
      have h2 : out 2 = Outcome.success := hsucc
      refine ⟨?_, ?_, ?_, ?_⟩ <;>
        simp [processTask, runFrom, h1, h2, failBlockTest, successBlock,
          genCount, buildCount, testCount, List.range_succ]
    · have h1 : out 1 = Outcome.testFail := hfail 1 (by norm_num) (by norm_num)
      have h2 : out 2 = Outcome.testFail := hfail 2 (by norm_num) (by norm_num)
      have h3 : out 3 = Outcome.success := hsucc
      refine ⟨?_, ?_, ?_, ?_⟩ <;>
        simp [processTask, runFrom, h1, h2, h3, failBlockTest, successBlock,
          genCount, buildCount, testCount, List.range_succ]
  · intro hfail
    have h1 : out 1 = Outcome.testFail := hfail 1 (by norm_num) (by norm_num)
    have h2 : out 2 = Outcome.testFail := hfail 2 (by norm_num) (by norm_num)
    have h3 : out 3 = Outcome.testFail := hfail 3 (by norm_num) (by norm_num)
    refine ⟨?_, ?_, ?_, ?_⟩ <;>
      simp [processTask, runFrom, h1, h2, h3, failBlockTest, giveUpEvents,
        genCount, buildCount, testCount, List.range_succ]

/-- C4 counterexample: a publish failure (after a successful validation) on
every attempt of a concrete task. The code retries it within the same
task's cycle — generate is called again at attempts 2 and 3 with the
publish error as context — and the exhaustion path adds the agent-failed
label; contradicting the claim that a publish failure is not retried within
the cycle and leaves the task unlabeled. -/
theorem publish_error_cex :
    (processTask (fun _ => "S") (fun _ => Outcome.publishError "git push failed") 1).1.contains
      (Event.generate 2 (some ⟨"S", "git push failed"⟩)) = true ∧
    (processTask (fun _ => "S") (fun _ => Outcome.publishError "git push failed") 1).1.contains
      (Event.generate 3 (some ⟨"S", "git push failed"⟩)) = true ∧
    (processTask (fun _ => "S") (fun _ => Outcome.publishError "git push failed") 1).1.contains
      (Event.addLabel "agent-failed") = true ∧
    (processTask (fun _ => "S") (fun _ => Outcome.publishError "git push failed") 1).2 =
      TaskResult.gaveUp "git push failed" := by
  refine ⟨by decide, by decide, by decide, by decide⟩

/-- C4 (amended): `create_pull_request` is called inside the attempt-level
`try` (line 394 within lines 373-439), so a publish failure after a
successful validation is caught by the attempt-level handler (line 440),
recorded as that attempt's error context, and retried within the same
task's cycle; if it also fails on the final attempt, the give-up path posts
the comment and adds the agent-failed label. It does not surface to the
outer scan-level handler. -/
theorem publish_error_retried (gen : Nat → String) (out : Nat → Outcome)
    (version : Nat) (m1 m2 m3 : String)
    (h1 : out 1 = Outcome.publishError m1) (h2 : out 2 = Outcome.publishError m2)
    (h3 : out 3 = Outcome.publishError m3) :
    processTask gen out version =
      ([Event.generate 1 none,
        Event.build 1 (scriptFileName version) (artifactName version),
        Event.runTest 1 (artifactName version),
        Event.publish 1 (branchName version),
        Event.generate 2 (some ⟨gen 1, m1⟩),
        Event.build 2 (scriptFileName version) (artifactName version),
        Event.runTest 2 (artifactName version),
        Event.publish 2 (branchName version),
        Event.generate 3 (some ⟨gen 2, m2⟩),
        Event.build 3 (scriptFileName version) (artifactName version),
        Event.runTest 3 (artifactName version),
        Event.publish 3 (branchName version)] ++ giveUpEvents (some m3),
       TaskResult.gaveUp m3) := by
  simp [processTask, runFrom, h1, h2, h3, giveUpEvents]

theorem publish_error_retried_witness :
    processTask (fun _ => "S") (fun _ => Outcome.publishError "git push failed") 1 =
      ([Event.generate 1 none,
        Event.build 1 (scriptFileName 1) (artifactName 1),
        Event.runTest 1 (artifactName 1),
        Event.publish 1 (branchName 1),
        Event.generate 2 (some ⟨"S", "git push failed"⟩),
        Event.build 2 (scriptFileName 1) (artifactName 1),
        Event.runTest 2 (artifactName 1),
        Event.publish 2 (branchName 1),
        Event.generate 3 (some ⟨"S", "git push failed"⟩),
        Event.build 3 (scriptFileName 1) (artifactName 1),
        Event.runTest 3 (artifactName 1),
        Event.publish 3 (branchName 1)] ++ giveUpEvents (some "git push failed"),
       TaskResult.gaveUp "git push failed") :=
  publish_error_retried (fun _ => "S")
    (fun _ => Outcome.publishError "git push failed") 1
    "git push failed" "git push failed" "git push failed" rfl rfl rfl

/-- C5 counterexample: a concrete task whose first attempt fails the test
cleanly and whose second attempt succeeds. The context handed to attempt
2's generation carries the fixed summary of line 418, which is not the
string the claim states. -/
theorem clean_test_failure_cex :
    processTask (fun _ => "S")
        (fun a => if a = 1 then Outcome.testFail else Outcome.success) 1 =
      ([Event.generate 1 none,
        Event.build 1 "evolve_v1.sh" "agent_v1.py",
        Event.runTest 1 "agent_v1.py",
        Event.generate 2
          (some ⟨"S", "New version failed --test flag (exit code non-zero)"⟩),
        Event.build 2 "evolve_v1.sh" "agent_v1.py",
        Event.runTest 2 "agent_v1.py",
        Event.publish 2 "evolution-v1",
        Event.commentSuccess 2, Event.closeIssue,
        Event.execv "agent_v1.py"],
       TaskResult.replaced 2 "agent_v1.py") ∧
    "New version failed --test flag (exit code non-zero)" ≠
      "artifact failed self-check." := by
  refine ⟨by decide, by decide⟩

/-- C5 (amended): when the validator returns false cleanly at attempt 1,
the error summary captured for attempt 2's generation context is the fixed
string of line 418: "New version failed --test flag (exit code non-zero)"
(together with attempt 1's script), whatever the later attempts do. -/
theorem clean_test_failure_summary (gen : Nat → String) (out : Nat → Outcome)
    (version : Nat) (h1 : out 1 = Outcome.testFail) :
    Event.generate 2 (some ⟨gen 1, failedTestError⟩) ∈
      (processTask gen out version).1 := by
  cases h2 : out 2 <;>
    simp [processTask, runFrom, h1, h2, giveUpEvents]

theorem clean_test_failure_summary_witness :
    Event.generate 2 (some ⟨"S", failedTestError⟩) ∈
      (processTask (fun _ => "S")
        (fun a => if a = 1 then Outcome.testFail else Outcome.success) 1).1 :=
  clean_test_failure_summary (fun _ => "S")
    (fun a => if a = 1 then Outcome.testFail else Outcome.success) 1 rfl

theorem contains_eq_true_iff (l : List String) (x : String) :
    l.contains x = true ↔ x ∈ l := List.elem_iff

theorem contains_eq_false_iff (l : List String) (x : String) :
    l.contains x = false ↔ x ∉ l := by
  constructor
  · intro h hm
    have := (contains_eq_true_iff l x).mpr hm
    rw [h] at this; cases this
  · intro h
    cases hc : l.contains x with
    | false => rfl
    | true => exact absurd ((contains_eq_true_iff l x).mp hc) h

/-- C7: a task labeled agent-failed without agent-retry is skipped (no
attempt runs, its labels are untouched); a task labeled agent-retry has
both agent-failed and agent-retry cleared before reprocessing, and after
the cycle neither label is present — except that the give-up path re-adds
agent-failed (and only then). -/
theorem label_filtering_correct (labels : List String) (gen : Nat → String)
    (out : Nat → Outcome) (version : Nat) :
    (labels.contains "agent-failed" = true → labels.contains "agent-retry" = false →
      processIssue labels gen out version = (none, labels)) ∧
    (labels.contains "agent-retry" = true →
      (processIssue labels gen out version).2.contains "agent-retry" = false ∧
      ((processIssue labels gen out version).2.contains "agent-failed" = true ↔
        ∃ m, (processTask gen out version).2 = TaskResult.gaveUp m)) := by
  have hfilter : ∀ x : String, (!(x == "agent-failed") && !(x == "agent-retry")) = false →
      (labels.filter (fun l => !(l == "agent-failed") && !(l == "agent-retry"))).contains x
        = false := by
    intro x hx
    rw [contains_eq_false_iff]
    intro hm
    have := (List.mem_filter.mp hm).2
    rw [hx] at this; cases this
  constructor
  · intro hf hr
    unfold processIssue
    rw [hf, hr]
    simp
  · intro hr
    have hcond : (labels.contains "agent-failed" && !(labels.contains "agent-retry"))
        = false := by rw [hr]; simp
    cases hres : (processTask gen out version).2 with
    | gaveUp m =>
      have hpi : processIssue labels gen out version =
          (some (processTask gen out version),
           labels.filter (fun l => !(l == "agent-failed") && !(l == "agent-retry"))
             ++ ["agent-failed"]) := by
        unfold processIssue
        rw [hcond, hr]
        simp [hres]
      rw [hpi]
      constructor
      · rw [contains_eq_false_iff]
        intro hm
        rcases List.mem_append.mp hm with hm1 | hm1
        · exact (contains_eq_false_iff _ _).mp (hfilter "agent-retry" (by decide)) hm1
        · rcases List.mem_singleton.mp hm1 with h
          exact absurd h (by decide)
      · constructor
        · intro _; exact ⟨m, rfl⟩
        · intro _
          show (List.filter _ labels ++ ["agent-failed"]).contains "agent-failed" = true
          rw [contains_eq_true_iff]
          exact List.mem_append.mpr (Or.inr (List.mem_singleton.mpr rfl))
    | replaced a p =>
      have hpi : processIssue labels gen out version =
          (some (processTask gen out version),
           labels.filter (fun l => !(l == "agent-failed") && !(l == "agent-retry"))) := by
        unfold processIssue
        rw [hcond, hr]
        simp [hres]
      rw [hpi]
      refine ⟨hfilter "agent-retry" (by decide), ?_⟩
      constructor
      · intro h
        have h2 : (labels.filter
            (fun l => !(l == "agent-failed") && !(l == "agent-retry"))).contains
            "agent-failed" = true := h
        rw [hfilter "agent-failed" (by decide)] at h2
        exact Bool.noConfusion h2
      · rintro ⟨m, hm⟩
        exact TaskResult.noConfusion hm

/-- Every build event of the attempt loop writes the evolution script and
targets the artifact named from the version the loop was given — the same
names on every attempt. -/
theorem runFrom_build_names (gen : Nat → String) (out : Nat → Outcome)
    (version maxR : Nat) :
    ∀ fuel a prev last e, e ∈ (runFrom gen out version maxR fuel a prev last).1 →
      ∀ i sf ap, e = Event.build i sf ap →
        sf = scriptFileName version ∧ ap = artifactName version := by
  intro fuel
  induction fuel with
  | zero =>
    intro a prev last e he
    simp [runFrom] at he
  | succ fuel ih =>
    intro a prev last e he i sf ap hee
    subst hee
    rw [runFrom] at he
    cases hout : out a with
    | genError m =>
      rw [hout] at he
      by_cases ha : a = maxR
      · simp [ha, giveUpEvents] at he
      · simp only [if_neg ha] at he
        simp at he
        exact ih _ _ _ _ he _ _ _ rfl
    | buildError m =>
      rw [hout] at he
      by_cases ha : a = maxR
      · simp [ha, giveUpEvents] at he
        obtain ⟨-, rfl, rfl⟩ := he
        exact ⟨rfl, rfl⟩
      · simp only [if_neg ha] at he
        simp at he
        rcases he with ⟨-, rfl, rfl⟩ | he
        · exact ⟨rfl, rfl⟩
        · exact ih _ _ _ _ he _ _ _ rfl
    | testFail =>
      rw [hout] at he
      by_cases ha : a = maxR
      · simp [ha, giveUpEvents] at he
        obtain ⟨-, rfl, rfl⟩ := he
        exact ⟨rfl, rfl⟩
      · simp only [if_neg ha] at he
        simp at he
        rcases he with ⟨-, rfl, rfl⟩ | he
        · exact ⟨rfl, rfl⟩
        · exact ih _ _ _ _ he _ _ _ rfl
    | publishError m =>
      rw [hout] at he
      by_cases ha : a = maxR
      · simp [ha, giveUpEvents] at he
        obtain ⟨-, rfl, rfl⟩ := he
        exact ⟨rfl, rfl⟩
      · simp only [if_neg ha] at he
        simp at he
        rcases he with ⟨-, rfl, rfl⟩ | he
        · exact ⟨rfl, rfl⟩
        · exact ih _ _ _ _ he _ _ _ rfl
    | success =>
      rw [hout] at he
      simp at he
      obtain ⟨-, rfl, rfl⟩ := he
      exact ⟨rfl, rfl⟩

/-- The first component of one issue's processing is either a skip or
exactly the attempt loop's run. -/
theorem processIssue_fst (labels : List String) (gen : Nat → String)
    (out : Nat → Outcome) (v : Nat) :
    (processIssue labels gen out v).1 = none ∨
    (processIssue labels gen out v).1 = some (processTask gen out v) := by
  unfold processIssue
  by_cases h : (labels.contains "agent-failed" && !(labels.contains "agent-retry")) = true
  · rw [if_pos h]; left; rfl
  · rw [if_neg h]
    cases hres : (processTask gen out v).2 <;> simp [hres]

theorem runIssues_build_names (v : Nat) :
    ∀ issues, ∀ entry ∈ runIssues v issues, ∀ trace res, entry.1 = some (trace, res) →
      ∀ e ∈ trace, ∀ i sf ap, e = Event.build i sf ap →
        sf = scriptFileName v ∧ ap = artifactName v := by
  intro issues
  induction issues with
  | nil =>
    intro entry he
    simp [runIssues] at he
  | cons is rest ih =>
    intro entry he trace res hsome e hmem i sf ap hee
    rw [runIssues] at he
    have hfromTask : entry = processIssue is.labels is.gen is.out v →
        sf = scriptFileName v ∧ ap = artifactName v := by
      intro hent
      rcases processIssue_fst is.labels is.gen is.out v with hn | hs
      · rw [hent, hn] at hsome; exact Option.noConfusion hsome
      · rw [hent, hs] at hsome
        have hpair : processTask is.gen is.out v = (trace, res) :=
          Option.some.inj hsome
        have htrace : trace = (processTask is.gen is.out v).1 := by
          rw [hpair]
        rw [htrace] at hmem
        exact runFrom_build_names is.gen is.out v 3 3 1 none none e hmem i sf ap hee
    rcases hn : (processIssue is.labels is.gen is.out v).1 with - | p
    · rw [hn] at he
      simp at he
      rcases he with rfl | he
      · exact hfromTask rfl
      · exact ih entry he trace res hsome e hmem i sf ap hee
    · rw [hn] at he
      have he2 : entry ∈ (match p.2 with
          | TaskResult.replaced _ _ => [processIssue is.labels is.gen is.out v]
          | TaskResult.gaveUp _ =>
            processIssue is.labels is.gen is.out v :: runIssues v rest) := he
      cases hres : p.2 with
      | replaced a q =>
        rw [hres] at he2
        simp at he2
        subst he2
        exact hfromTask rfl
      | gaveUp m =>
        rw [hres] at he2
        simp at he2
        rcases he2 with rfl | he2
        · exact hfromTask rfl
        · exact ih entry he2 trace res hsome e hmem i sf ap hee

/-- C10: the version number of a scan is computed once, from the directory
listing at scan start and before the issues are iterated (`runScan`), and
every build of every attempt of every task processed in that scan writes
the same evolution-script file evolve_v(N).sh and targets the same artifact
path agent_v(N).py for that one N — a failing attempt's successor reuses
the very same paths instead of minting a fresh version. -/
theorem version_once_per_scan (files : List (List Char)) (issues : List IssueSpec) :
    ∀ entry ∈ runScan files issues, ∀ trace res, entry.1 = some (trace, res) →
      ∀ e ∈ trace, ∀ i sf ap, e = Event.build i sf ap →
        sf = scriptFileName (get_next_version files) ∧
        ap = artifactName (get_next_version files) := by
  intro entry he
  exact runIssues_build_names (get_next_version files) issues entry he

theorem version_once_per_scan_witness :
    "evolve_v1.sh" = scriptFileName (get_next_version []) ∧
    "agent_v1.py" = artifactName (get_next_version []) :=
  version_once_per_scan [] [⟨[], fun _ => "S", fun _ => Outcome.success⟩]
    (some ([Event.generate 1 none, Event.build 1 "evolve_v1.sh" "agent_v1.py",
      Event.runTest 1 "agent_v1.py", Event.publish 1 "evolution-v1",
      Event.commentSuccess 1, Event.closeIssue, Event.execv "agent_v1.py"],
      TaskResult.replaced 1 "agent_v1.py"), [])
    (by decide)
    [Event.generate 1 none, Event.build 1 "evolve_v1.sh" "agent_v1.py",
      Event.runTest 1 "agent_v1.py", Event.publish 1 "evolution-v1",
      Event.commentSuccess 1, Event.closeIssue, Event.execv "agent_v1.py"]
    (TaskResult.replaced 1 "agent_v1.py") rfl
    (Event.build 1 "evolve_v1.sh" "agent_v1.py") (by decide)
    1 "evolve_v1.sh" "agent_v1.py" rfl

/-! ## Placeholder substitution in `create_new_version`
(src/agent.py lines 207-219)

Python's `str.replace(pat, rep)` rewrites the non-overlapping occurrences of
`pat` left to right and never rescans replacement text. `replaceAllF` is
that scanner with explicit fuel (one unit per consumed character, so the
input's length suffices). -/

def replaceAllF (pat rep : List Char) : Nat → List Char → List Char
  | 0, l => l
  | _ + 1, [] => []
  | fuel + 1, c :: rest =>
    if isPre pat (c :: rest) && !pat.isEmpty then
      rep ++ replaceAllF pat rep fuel ((c :: rest).drop pat.length)
    else c :: replaceAllF pat rep fuel rest

def replaceAll (pat rep l : List Char) : List Char := replaceAllF pat rep l.length l

/-- Decimal digits of a natural number, the text `str(version)` interpolates. -/
def decAux : Nat → Nat → List Char
  | 0, _ => []
  | fuel + 1, n =>
    if n < 10 then [Nat.digitChar n]
    else decAux fuel (n / 10) ++ [Nat.digitChar (n % 10)]

def decimal (n : Nat) : List Char := decAux (n + 1) n

/-- The three placeholder tokens rewritten at lines 211-213. -/
def tokAgentVN : List Char := "agent_vN.py".toList

def tokVN : List Char := "vN".toList

def tokCA : List Char := "CURRENT_AGENT".toList

/-- The substitution step of `create_new_version`:
`script.replace("agent_vN.py", "agent_v{v}.py").replace("vN", "v{v}")
.replace("CURRENT_AGENT", current_filename)`. -/
def substituteScript (script : List Char) (version : Nat) (currentFilename : List Char) :
    List Char :=
  let s1 := replaceAll tokAgentVN
    ("agent_v".toList ++ decimal version ++ ".py".toList) script
  let s2 := replaceAll tokVN ('v' :: decimal version) s1
  replaceAll tokCA currentFilename s2

def isUpperOrUnderscore (c : Char) : Bool := c.isUpper || c == '_'

theorem bool_eq_false (b : Bool) (h : b = true → False) : b = false := by
  cases b with
  | false => rfl
  | true => exact absurd rfl h

theorem occursB_of_isPre (pat l : List Char) (h : isPre pat l = true) :
    occursB pat l = true := by
  cases l with
  | nil => exact h
  | cons c rest => simp [occursB, h]

theorem decAux_digits :
    ∀ fuel n c, c ∈ decAux fuel n → c.isDigit = true := by
  intro fuel
  induction fuel with
  | zero => intro n c hc; simp [decAux] at hc
  | succ fuel ih =>
    intro n c hc
    rw [decAux] at hc
    by_cases hn : n < 10
    · rw [if_pos hn] at hc
      rcases List.mem_singleton.mp hc with rfl
      interval_cases n <;> decide
    · rw [if_neg hn] at hc
      rcases List.mem_append.mp hc with hc1 | hc1
      · exact ih _ _ hc1
      · rcases List.mem_singleton.mp hc1 with rfl
        have h10 : n % 10 < 10 := Nat.mod_lt _ (by norm_num)
        interval_cases h : n % 10 <;> simp_all <;> decide

theorem decimal_digits (n : Nat) (c : Char) (hc : c ∈ decimal n) :
    c.isDigit = true := decAux_digits _ _ _ hc

theorem decimal_ne_nil (n : Nat) : decimal n ≠ [] := by
  unfold decimal
  rw [decAux]
  by_cases hn : n < 10
  · rw [if_pos hn]; simp
  · rw [if_neg hn]; simp

theorem getLast?_of_ne_nil :
    ∀ (l : List Char), l ≠ [] → ∃ c, l.getLast? = some c ∧ c ∈ l := by
  intro l
  induction l with
  | nil => intro h; exact absurd rfl h
  | cons a t ih =>
    intro _
    cases t with
    | nil => exact ⟨a, rfl, List.mem_singleton.mpr rfl⟩
    | cons b t2 =>
      rcases ih (by simp) with ⟨c, hc1, hc2⟩
      exact ⟨c, by rw [List.getLast?_cons_cons]; exact hc1,
        List.mem_cons_of_mem _ hc2⟩

/-- With no occurrence of the (nonempty) pattern, replacement is the
identity. -/
theorem replaceAllF_id (pat rep : List Char) :
    ∀ fuel l, occursB pat l = false → replaceAllF pat rep fuel l = l := by
  intro fuel
  induction fuel with
  | zero => intro l _; rfl
  | succ fuel ih =>
    intro l hocc
    cases l with
    | nil => rfl
    | cons c rest =>
      have hsplit : isPre pat (c :: rest) = false ∧ occursB pat rest = false := by
        have : (isPre pat (c :: rest) || occursB pat rest) = false := hocc
        exact ⟨by revert this; cases isPre pat (c :: rest) <;> simp,
          by revert this; cases occursB pat rest <;> simp⟩
      rw [replaceAllF]
      rw [if_neg (by rw [hsplit.1]; simp)]
      rw [ih rest hsplit.2]

/-- When the pattern occurs, the replacement text occurs in the result. -/
theorem replaceAllF_has_rep (pat rep : List Char) (hpat : pat ≠ []) :
    ∀ fuel l, l.length ≤ fuel → occursB pat l = true →
      occursB rep (replaceAllF pat rep fuel l) = true := by
  intro fuel
  induction fuel with
  | zero =>
    intro l hl hocc
    have hnil : l = [] := List.length_eq_zero.mp (Nat.le_zero.mp hl)
    subst hnil
    cases pat with
    | nil => exact absurd rfl hpat
    | cons p ps => exact absurd hocc (by simp [occursB, isPre])
  | succ fuel ih =>
    intro l hl hocc
    cases l with
    | nil =>
      cases pat with
      | nil => exact absurd rfl hpat
      | cons p ps => exact absurd hocc (by simp [occursB, isPre])
    | cons c rest =>
      rw [replaceAllF]
      by_cases hc : isPre pat (c :: rest) = true
      · rw [if_pos (by rw [hc]; simpa using hpat)]
        have : occursB rep (rep ++ replaceAllF pat rep fuel ((c :: rest).drop pat.length))
            = true := by
          have := occursB_here rep []
            (replaceAllF pat rep fuel ((c :: rest).drop pat.length))
          simpa using this
        exact this
      · rw [if_neg (by rw [bool_eq_false _ (fun h => hc h)]; simp)]
        have hrest : occursB pat rest = true := by
          have h2 : isPre pat (c :: rest) = true ∨ occursB pat rest = true := by
            have h3 : (isPre pat (c :: rest) || occursB pat rest) = true := hocc
            revert h3
            cases isPre pat (c :: rest) <;> cases occursB pat rest <;> simp
          rcases h2 with h | h
          · exact absurd h hc
          · exact h
        exact occursB_cons rep c _ (ih rest (Nat.le_of_succ_le_succ hl) hrest)

/-- The head of a replacement result comes from the replacement text or from
the input. -/
theorem replaceAllF_head (pat rep : List Char) (hrep : rep ≠ []) :
    ∀ fuel l, (replaceAllF pat rep fuel l).head? = none ∨
      (replaceAllF pat rep fuel l).head? = rep.head? ∨
      (replaceAllF pat rep fuel l).head? = l.head? := by
  intro fuel l
  cases fuel with
  | zero => right; right; rfl
  | succ fuel =>
    cases l with
    | nil => left; rfl
    | cons c rest =>
      rw [replaceAllF]
      by_cases hc : (isPre pat (c :: rest) && !pat.isEmpty) = true
      · rw [if_pos hc]
        right; left
        cases rep with
        | nil => exact absurd rfl hrep
        | cons r rs => rfl
      · rw [if_neg hc]
        right; right; rfl

theorem isPre_single_iff (q : Char) (l : List Char) :
    isPre [q] l = true ↔ l.head? = some q := by
  cases l with
  | nil => simp [isPre]
  | cons x xs =>
    simp only [isPre, Bool.and_eq_true, beq_iff_eq, List.head?_cons,
      Option.some.injEq]
    constructor
    · rintro ⟨rfl, -⟩; rfl
    · rintro rfl; exact ⟨rfl, trivial⟩

theorem head?_mem (l : List Char) (x : Char) (h : l.head? = some x) : x ∈ l := by
  cases l with
  | nil => cases h
  | cons a t =>
    have h2 : a = x := by
      have : some a = some x := h
      exact Option.some.inj this
    rw [← h2]
    exact List.mem_cons_self _ _

/-- Decomposition of a two-character occurrence across an append: it lies in
the left part, in the right part, or straddles the boundary. -/
theorem occursB_pair_append (p q : Char) :
    ∀ (a b : List Char), occursB [p, q] (a ++ b) = true →
      occursB [p, q] a = true ∨ occursB [p, q] b = true ∨
      (a.getLast? = some p ∧ b.head? = some q) := by
  intro a
  induction a with
  | nil => intro b h; right; left; simpa using h
  | cons c cs ih =>
    intro b h
    have h2 : isPre [p, q] (c :: (cs ++ b)) = true ∨ occursB [p, q] (cs ++ b) = true := by
      have h3 : (isPre [p, q] (c :: (cs ++ b)) || occursB [p, q] (cs ++ b)) = true := by
        simpa [occursB] using h
      revert h3
      cases isPre [p, q] (c :: (cs ++ b)) <;> cases occursB [p, q] (cs ++ b) <;> simp
    rcases h2 with h2 | h2
    · have hcp : p = c ∧ isPre [q] (cs ++ b) = true := by
        have := h2
        simp only [isPre, Bool.and_eq_true, beq_iff_eq] at this
        exact this
      rcases hcp with ⟨rfl, hq⟩
      cases cs with
      | nil =>
        right; right
        refine ⟨rfl, ?_⟩
        rw [← isPre_single_iff]
        simpa using hq
      | cons d cs2 =>
        left
        have hd : d = q := by
          have := (isPre_single_iff q _).mp hq
          simpa using this
        apply occursB_of_isPre
        simp [isPre, hd]
    · rcases ih b h2 with h3 | h3 | h3
      · left; exact occursB_cons _ _ _ h3
      · right; left; exact h3
      · right; right
        refine ⟨?_, h3.2⟩
        cases cs with
        | nil => cases h3.1
        | cons d cs2 =>
          rw [List.getLast?_cons_cons]
          exact h3.1

theorem occursB_pair_snd_mem (p q : Char) (l : List Char)
    (h : occursB [p, q] l = true) : q ∈ l := by
  rcases (occursB_iff _ l).mp h with ⟨x, y, rfl⟩
  simp

/-- Replacing `vN` with text that has no N, is nonempty, and does not end
in v leaves no `vN` occurrence in the result. -/
theorem replaceAll_vN_elim (rep : List Char) (hrepN : 'N' ∉ rep) (hrep : rep ≠ [])
    (hlast : rep.getLast? ≠ some 'v') :
    ∀ fuel l, l.length ≤ fuel →
      occursB ['v', 'N'] (replaceAllF ['v', 'N'] rep fuel l) = false := by
  intro fuel
  induction fuel with
  | zero =>
    intro l hl
    have h0 : l = [] := List.length_eq_zero.mp (Nat.le_zero.mp hl)
    subst h0
    simp [replaceAllF, occursB, isPre]
  | succ fuel ih =>
    intro l hl
    cases l with
    | nil => simp [replaceAllF, occursB, isPre]
    | cons c rest =>
      rw [replaceAllF]
      by_cases hc : isPre ['v', 'N'] (c :: rest) = true
      · rw [if_pos (by rw [hc]; rfl)]
        apply bool_eq_false
        intro hocc
        rcases occursB_pair_append 'v' 'N' rep _ hocc with h1 | h1 | h1
        · exact hrepN (occursB_pair_snd_mem _ _ _ h1)
        · have hlen : ((c :: rest).drop (['v', 'N'] : List Char).length).length ≤ fuel := by
            simp only [List.length_drop, List.length_cons]
            have : rest.length + 1 ≤ fuel + 1 := by simpa using hl
            omega
          have h2 := ih _ hlen
          rw [h2] at h1
          cases h1
        · exact hlast h1.1
      · rw [if_neg (by rw [bool_eq_false _ (fun h => hc h)]; simp)]
        apply bool_eq_false
        intro hocc
        have h2 : isPre ['v', 'N'] (c :: replaceAllF ['v', 'N'] rep fuel rest) = true ∨
            occursB ['v', 'N'] (replaceAllF ['v', 'N'] rep fuel rest) = true := by
          have h3 : (isPre ['v', 'N'] (c :: replaceAllF ['v', 'N'] rep fuel rest) ||
              occursB ['v', 'N'] (replaceAllF ['v', 'N'] rep fuel rest)) = true := by
            simpa [occursB] using hocc
          revert h3
          cases isPre ['v', 'N'] (c :: replaceAllF ['v', 'N'] rep fuel rest) <;>
            cases occursB ['v', 'N'] (replaceAllF ['v', 'N'] rep fuel rest) <;> simp
        rcases h2 with h2 | h2
        · have hcv : 'v' = c ∧ isPre ['N'] (replaceAllF ['v', 'N'] rep fuel rest) = true := by
            simpa [isPre] using h2
          rcases hcv with ⟨heq, hN⟩
          have hrecN := (isPre_single_iff 'N' _).mp hN
          rcases replaceAllF_head ['v', 'N'] rep hrep fuel rest with hh | hh | hh
          · rw [hh] at hrecN; cases hrecN
          · rw [hh] at hrecN; exact hrepN (head?_mem _ _ hrecN)
          · rw [hh] at hrecN
            apply hc
            have hrN : isPre ['N'] rest = true := (isPre_single_iff 'N' rest).mpr hrecN
            rw [← heq]
            simp [isPre, hrN]
        · have h3 := ih rest (Nat.le_of_succ_le_succ hl)
          rw [h3] at h2
          cases h2

/-- Replacing any pattern with text that has no N, is nonempty, and does
not end in v creates no `vN` occurrence where there was none. -/
theorem replaceAll_vN_preserve (P F : List Char) (hFN : 'N' ∉ F) (hF : F ≠ [])
    (hFlast : F.getLast? ≠ some 'v') :
    ∀ fuel l, l.length ≤ fuel → occursB ['v', 'N'] l = false →
      occursB ['v', 'N'] (replaceAllF P F fuel l) = false := by
  intro fuel
  induction fuel with
  | zero => intro l _ h; simpa [replaceAllF] using h
  | succ fuel ih =>
    intro l hl h
    cases l with
    | nil => simpa [replaceAllF] using h
    | cons c rest =>
      have hsplit : isPre ['v', 'N'] (c :: rest) = false ∧
          occursB ['v', 'N'] rest = false := by
        have h3 : (isPre ['v', 'N'] (c :: rest) || occursB ['v', 'N'] rest) = false := by
          simpa [occursB] using h
        exact ⟨by revert h3; cases isPre ['v', 'N'] (c :: rest) <;> simp,
          by revert h3; cases occursB ['v', 'N'] rest <;>
            cases isPre ['v', 'N'] (c :: rest) <;> simp⟩
      rw [replaceAllF]
      by_cases hc : (isPre P (c :: rest) && !P.isEmpty) = true
      · rw [if_pos hc]
        have hPne : P ≠ [] := by
          rcases Bool.and_eq_true_iff.mp hc with ⟨-, h2⟩
          intro h0
          rw [h0] at h2
          cases h2
        apply bool_eq_false
        intro hocc
        rcases occursB_pair_append 'v' 'N' F _ hocc with h1 | h1 | h1
        · exact hFN (occursB_pair_snd_mem _ _ _ h1)
        · have hdrop : occursB ['v', 'N'] ((c :: rest).drop P.length) = false := by
            apply bool_eq_false
            intro hd
            have hup : occursB ['v', 'N'] (c :: rest) = true := by
              have hsplit2 : c :: rest =
                  (c :: rest).take P.length ++ (c :: rest).drop P.length :=
                (List.take_append_drop _ _).symm
              rw [hsplit2]
              exact occursB_append_right _ _ _ hd
            rw [h] at hup
            cases hup
          have hlen : ((c :: rest).drop P.length).length ≤ fuel := by
            simp only [List.length_drop, List.length_cons]
            have h4 : rest.length + 1 ≤ fuel + 1 := by simpa using hl
            have h5 : 1 ≤ P.length := List.length_pos.mpr hPne
            omega
          have h6 := ih _ hlen hdrop
          rw [h6] at h1
          cases h1
        · exact hFlast h1.1
      · rw [if_neg hc]
        apply bool_eq_false
        intro hocc
        have h2 : isPre ['v', 'N'] (c :: replaceAllF P F fuel rest) = true ∨
            occursB ['v', 'N'] (replaceAllF P F fuel rest) = true := by
          have h3 : (isPre ['v', 'N'] (c :: replaceAllF P F fuel rest) ||
              occursB ['v', 'N'] (replaceAllF P F fuel rest)) = true := by
            simpa [occursB] using hocc
          revert h3
          cases isPre ['v', 'N'] (c :: replaceAllF P F fuel rest) <;>
            cases occursB ['v', 'N'] (replaceAllF P F fuel rest) <;> simp
        rcases h2 with h2 | h2
        · have hcv : 'v' = c ∧ isPre ['N'] (replaceAllF P F fuel rest) = true := by
            simpa [isPre] using h2
          rcases hcv with ⟨heq, hN⟩
          have hrecN := (isPre_single_iff 'N' _).mp hN
          rcases replaceAllF_head P F hF fuel rest with hh | hh | hh
          · rw [hh] at hrecN; cases hrecN
          · rw [hh] at hrecN; exact hFN (head?_mem _ _ hrecN)
          · rw [hh] at hrecN
            have hrN : isPre ['N'] rest = true := (isPre_single_iff 'N' rest).mpr hrecN
            have : isPre ['v', 'N'] (c :: rest) = true := by
              rw [← heq]
              simp [isPre, hrN]
            rw [hsplit.1] at this
            cases this
        · have h3 := ih rest (Nat.le_of_succ_le_succ hl) hsplit.2
          rw [h3] at h2
          cases h2

/-- A prefix made of uppercase-or-underscore characters of a replacement
result, when the replacement text has no such character, was already a
prefix of the input. -/
theorem replaceAllF_upper_pre (P F : List Char) (hF : F ≠ [])
    (hFu : ∀ c ∈ F, isUpperOrUnderscore c = false) :
    ∀ fuel Q l, (∀ c ∈ Q, isUpperOrUnderscore c = true) →
      isPre Q (replaceAllF P F fuel l) = true → isPre Q l = true := by
  intro fuel
  induction fuel with
  | zero => intro Q l _ h; simpa [replaceAllF] using h
  | succ fuel ih =>
    intro Q l hQ h
    cases l with
    | nil => simpa [replaceAllF] using h
    | cons c rest =>
      rw [replaceAllF] at h
      by_cases hc : (isPre P (c :: rest) && !P.isEmpty) = true
      · rw [if_pos hc] at h
        cases Q with
        | nil => simp [isPre]
        | cons q Q2 =>
          exfalso
          cases F with
          | nil => exact absurd rfl hF
          | cons f F2 =>
            have hqf : f = q := by
              rcases (isPre_iff _ _).mp h with ⟨t, ht⟩
              simp only [List.cons_append, List.cons.injEq] at ht
              exact ht.1
            have hq := hQ q (List.mem_cons_self _ _)
            have hf := hFu f (List.mem_cons_self _ _)
            rw [hqf, hq] at hf
            cases hf
      · rw [if_neg hc] at h
        cases Q with
        | nil => simp [isPre]
        | cons q Q2 =>
          have h2 : (q == c) = true ∧ isPre Q2 (replaceAllF P F fuel rest) = true := by
            have h3 : ((q == c) && isPre Q2 (replaceAllF P F fuel rest)) = true := by
              simpa [isPre] using h
            revert h3
            cases q == c <;> cases isPre Q2 (replaceAllF P F fuel rest) <;> simp
          have hq2 : ∀ x ∈ Q2, isUpperOrUnderscore x = true :=
            fun x hx => hQ x (List.mem_cons_of_mem _ hx)
          have h4 := ih Q2 rest hq2 h2.2
          simp [isPre, h2.1, h4]

/-- Replacing CURRENT_AGENT with text containing no uppercase letters and
no underscore eliminates every CURRENT_AGENT occurrence and creates no new
one. -/
theorem replaceAll_CA_elim (F : List Char) (hF : F ≠ [])
    (hFu : ∀ c ∈ F, isUpperOrUnderscore c = false) :
    ∀ fuel l, l.length ≤ fuel →
      occursB tokCA (replaceAllF tokCA F fuel l) = false := by
  have hCA : tokCA = 'C' :: "URRENT_AGENT".toList := by decide
  intro fuel
  induction fuel with
  | zero =>
    intro l hl
    have h0 : l = [] := List.length_eq_zero.mp (Nat.le_zero.mp hl)
    subst h0
    rw [hCA]
    simp [replaceAllF, occursB, isPre]
  | succ fuel ih =>
    intro l hl
    cases l with
    | nil =>
      rw [hCA]
      simp [replaceAllF, occursB, isPre]
    | cons c rest =>
      rw [replaceAllF]
      by_cases hc : (isPre tokCA (c :: rest) && !tokCA.isEmpty) = true
      · rw [if_pos hc]
        apply bool_eq_false
        intro hocc
        have hCF : 'C' ∉ F := fun hm => by
          have := hFu 'C' hm; revert this; decide
        rw [hCA] at hocc
        have hrec : occursB ('C' :: "URRENT_AGENT".toList)
            (replaceAllF tokCA F fuel ((c :: rest).drop tokCA.length)) = true :=
          occursB_append_elim 'C' "URRENT_AGENT".toList F _ hCF hocc
        rw [← hCA] at hrec
        have hlen : ((c :: rest).drop tokCA.length).length ≤ fuel := by
          simp only [List.length_drop, List.length_cons]
          have h4 : rest.length + 1 ≤ fuel + 1 := by simpa using hl
          have h5 : 1 ≤ tokCA.length := by decide
          omega
        have h6 := ih _ hlen
        rw [h6] at hrec
        cases hrec
      · rw [if_neg hc]
        apply bool_eq_false
        intro hocc
        have h2 : isPre tokCA (c :: replaceAllF tokCA F fuel rest) = true ∨
            occursB tokCA (replaceAllF tokCA F fuel rest) = true := by
          have h3 : (isPre tokCA (c :: replaceAllF tokCA F fuel rest) ||
              occursB tokCA (replaceAllF tokCA F fuel rest)) = true := by
            simpa [occursB] using hocc
          revert h3
          cases isPre tokCA (c :: replaceAllF tokCA F fuel rest) <;>
            cases occursB tokCA (replaceAllF tokCA F fuel rest) <;> simp
        rcases h2 with h2 | h2
        · rw [hCA] at h2
          have h4 : ('C' == c) = true ∧
              isPre "URRENT_AGENT".toList (replaceAllF tokCA F fuel rest) = true := by
            have h5 : (('C' == c) &&
                isPre "URRENT_AGENT".toList (replaceAllF tokCA F fuel rest)) = true := by
              simpa [isPre] using h2
            revert h5
            cases 'C' == c <;>
              cases isPre "URRENT_AGENT".toList (replaceAllF tokCA F fuel rest) <;> simp
          have hQ : ∀ x ∈ "URRENT_AGENT".toList, isUpperOrUnderscore x = true := by decide
          have h6 := replaceAllF_upper_pre tokCA F hF hFu fuel
            "URRENT_AGENT".toList rest hQ h4.2
          apply hc
          have hceq : 'C' = c := by simpa using h4.1
          rw [hCA, ← hceq]
          show ((('C' == 'C') && isPre "URRENT_AGENT".toList rest) &&
            !(('C' :: "URRENT_AGENT".toList).isEmpty)) = true
          rw [h6]
          rfl
        · have h3 := ih rest (Nat.le_of_succ_le_succ hl)
          rw [h3] at h2
          cases h2

/-- A prefix whose characters avoid the pattern's first character survives
replacement. -/
theorem replaceAllF_pre_preserve (p0 : Char) (P2 R : List Char) :
    ∀ fuel Q l, p0 ∉ Q → isPre Q l = true →
      isPre Q (replaceAllF (p0 :: P2) R fuel l) = true := by
  intro fuel
  induction fuel with
  | zero => intro Q l _ h; simpa [replaceAllF] using h
  | succ fuel ih =>
    intro Q l hp h
    cases l with
    | nil =>
      cases Q with
      | nil => simp [replaceAllF, isPre]
      | cons q Q2 => simp [isPre] at h
    | cons c rest =>
      cases Q with
      | nil => simp [isPre]
      | cons q Q2 =>
        have h2 : (q == c) = true ∧ isPre Q2 rest = true := by
          have h3 : ((q == c) && isPre Q2 rest) = true := by simpa [isPre] using h
          revert h3
          cases q == c <;> cases isPre Q2 rest <;> simp
        rw [replaceAllF]
        by_cases hc : (isPre (p0 :: P2) (c :: rest) && !(p0 :: P2).isEmpty) = true
        · exfalso
          rcases Bool.and_eq_true_iff.mp hc with ⟨hpre, -⟩
          have hp0c : p0 = c := by
            rcases (isPre_iff _ _).mp hpre with ⟨t, ht⟩
            simp only [List.cons_append, List.cons.injEq] at ht
            exact ht.1.symm
          have hqc : q = c := by simpa using h2.1
          apply hp
          rw [hp0c, ← hqc]
          exact List.mem_cons_self _ _
        · rw [if_neg hc]
          have h4 := ih Q2 rest (fun hm => hp (List.mem_cons_of_mem _ hm)) h2.2
          simp [isPre, h2.1, h4]

/-- An occurrence of a pattern that shares no first character with the
replaced pattern (in either direction) survives replacement. -/
theorem replaceAllF_occurs_preserve (q0 : Char) (Q2 : List Char)
    (p0 : Char) (P2 R : List Char)
    (hq0 : q0 ∉ p0 :: P2) (hp0 : p0 ∉ q0 :: Q2) :
    ∀ fuel l, l.length ≤ fuel → occursB (q0 :: Q2) l = true →
      occursB (q0 :: Q2) (replaceAllF (p0 :: P2) R fuel l) = true := by
  intro fuel
  induction fuel with
  | zero =>
    intro l hl h
    have h0 : l = [] := List.length_eq_zero.mp (Nat.le_zero.mp hl)
    subst h0
    exact absurd h (by simp [occursB, isPre])
  | succ fuel ih =>
    intro l hl h
    cases l with
    | nil => exact absurd h (by simp [occursB, isPre])
    | cons c rest =>
      have hsplit : isPre (q0 :: Q2) (c :: rest) = true ∨
          occursB (q0 :: Q2) rest = true := by
        have h3 : (isPre (q0 :: Q2) (c :: rest) || occursB (q0 :: Q2) rest) = true := by
          simpa [occursB] using h
        revert h3
        cases isPre (q0 :: Q2) (c :: rest) <;> cases occursB (q0 :: Q2) rest <;> simp
      rcases hsplit with hpre | hrest
      · exact occursB_of_isPre _ _
          (replaceAllF_pre_preserve p0 P2 R (fuel + 1) (q0 :: Q2) (c :: rest) hp0 hpre)
      · rw [replaceAllF]
        by_cases hc : (isPre (p0 :: P2) (c :: rest) && !(p0 :: P2).isEmpty) = true
        · rw [if_pos hc]
          rcases Bool.and_eq_true_iff.mp hc with ⟨hpre2, -⟩
          rcases (isPre_iff _ _).mp hpre2 with ⟨t, ht⟩
          have hdrop : (c :: rest).drop (p0 :: P2).length = t := by
            rw [ht]; exact List.drop_left _ _
          have ht2 : occursB (q0 :: Q2) t = true := by
            apply occursB_append_elim q0 Q2 (p0 :: P2) t hq0
            rw [← ht]; exact h
          have hlen : t.length ≤ fuel := by
            have h5 := congrArg List.length ht
            simp only [List.length_cons, List.length_append] at h5
            have hl2 : rest.length + 1 ≤ fuel + 1 := by simpa using hl
            omega
          rw [hdrop]
          exact occursB_append_right _ R _ (ih t hlen ht2)
        · rw [if_neg hc]
          exact occursB_cons _ c _ (ih rest (Nat.le_of_succ_le_succ hl) hrest)

/-- C6 (amended): for every script containing the placeholder tokens
agent_vN.py and CURRENT_AGENT, every version N, and every running-program
filename F that is nonempty, contains no uppercase letter and no
underscore, and does not end in the letter v (actual initial agent
filenames such as agent.py qualify), the finalized script contains no
occurrence of vN, agent_vN.py or CURRENT_AGENT, and contains v followed by
the decimal of N, and contains F. Python replace does not rescan
replacement text, so an adversarial F can reintroduce tokens — hence the
restriction on F (see the counterexample). -/
theorem substitution_correct (script : List Char) (version : Nat) (F : List Char)
    (hs1 : occursB tokAgentVN script = true)
    (hs2 : occursB tokCA script = true)
    (hFu : ∀ c ∈ F, isUpperOrUnderscore c = false)
    (hF2 : F ≠ [])
    (hF3 : F.getLast? ≠ some 'v') :
    occursB tokVN (substituteScript script version F) = false ∧
    occursB tokAgentVN (substituteScript script version F) = false ∧
    occursB tokCA (substituteScript script version F) = false ∧
    occursB ('v' :: decimal version) (substituteScript script version F) = true ∧
    occursB F (substituteScript script version F) = true := by
  have hVN : tokVN = ['v', 'N'] := by decide
  have hCA : tokCA = 'C' :: "URRENT_AGENT".toList := by decide
  have hAV : tokAgentVN = 'a' :: "gent_vN.py".toList := by decide
  have hFN : 'N' ∉ F := fun hm => by
    have := hFu 'N' hm; revert this; decide
  set R1 : List Char := "agent_v".toList ++ decimal version ++ ".py".toList with hR1def
  set R2 : List Char := 'v' :: decimal version with hR2def
  have hR1R2 : R1 = "agent_".toList ++ R2 ++ ".py".toList := by
    rw [hR1def, hR2def]
    have h0 : "agent_v".toList = "agent_".toList ++ ['v'] := by decide
    rw [h0]
    simp
  set s1 : List Char := replaceAll tokAgentVN R1 script with hs1def
  set s2 : List Char := replaceAll tokVN R2 s1 with hs2def
  have hsub : substituteScript script version F = replaceAll tokCA F s2 := rfl
  -- properties of the replacement text R2 = v followed by digits
  have hN2 : 'N' ∉ R2 := by
    rw [hR2def]
    intro hm
    rcases List.mem_cons.mp hm with h | h
    · exact absurd h (by decide)
    · have := decimal_digits version 'N' h
      revert this; decide
  have hR2ne : R2 ≠ [] := by rw [hR2def]; simp
  have hR2last : R2.getLast? ≠ some 'v' := by
    rw [hR2def]
    cases hdec : decimal version with
    | nil => exact absurd hdec (decimal_ne_nil version)
    | cons d ds =>
      rw [List.getLast?_cons_cons]
      intro hlast
      rcases getLast?_of_ne_nil (d :: ds) (by simp) with ⟨x, hx1, hx2⟩
      rw [hx1] at hlast
      have hxv : x = 'v' := Option.some.inj hlast
      have : x ∈ decimal version := by rw [hdec]; exact hx2
      have := decimal_digits version x this
      rw [hxv] at this
      revert this; decide
  -- pass 2 eliminates vN; pass 3 does not recreate it
  have h1 : occursB tokVN s2 = false := by
    rw [hs2def]
    unfold replaceAll
    rw [hVN]
    exact replaceAll_vN_elim R2 hN2 hR2ne hR2last s1.length s1 (Nat.le_refl _)
  have h2 : occursB tokVN (substituteScript script version F) = false := by
    rw [hsub]
    unfold replaceAll
    rw [hVN]
    apply replaceAll_vN_preserve tokCA F hFN hF2 hF3 s2.length s2 (Nat.le_refl _)
    rw [← hVN]
    exact h1
  -- no agent_vN.py without vN
  have hwider : tokAgentVN = "agent_".toList ++ tokVN ++ ".py".toList := by decide
  have h3 : occursB tokAgentVN (substituteScript script version F) = false := by
    apply bool_eq_false
    intro h
    rw [hwider] at h
    have := occursB_of_occursB_wider tokVN "agent_".toList ".py".toList _ h
    rw [h2] at this
    cases this
  -- pass 3 eliminates CURRENT_AGENT and cannot recreate it
  have h4 : occursB tokCA (substituteScript script version F) = false := by
    rw [hsub]
    unfold replaceAll
    exact replaceAll_CA_elim F hF2 hFu s2.length s2 (Nat.le_refl _)
  -- the concrete version text occurs
  have h5a : occursB R2 s2 = true := by
    by_cases hvn : occursB tokVN s1 = true
    · rw [hs2def]
      unfold replaceAll
      exact replaceAllF_has_rep tokVN R2 (by rw [hVN]; simp) s1.length s1
        (Nat.le_refl _) hvn
    · have hid : s2 = s1 := by
        rw [hs2def]
        unfold replaceAll
        exact replaceAllF_id tokVN R2 s1.length s1 (bool_eq_false _ (fun h => hvn h))
      have hR1occ : occursB R1 s1 = true := by
        rw [hs1def]
        unfold replaceAll
        exact replaceAllF_has_rep tokAgentVN R1 (by rw [hAV]; simp) script.length
          script (Nat.le_refl _) hs1
      rw [hid]
      rw [hR1R2] at hR1occ
      exact occursB_of_occursB_wider R2 "agent_".toList ".py".toList _ hR1occ
  have h5 : occursB ('v' :: decimal version) (substituteScript script version F) = true := by
    have hq0 : 'v' ∉ 'C' :: "URRENT_AGENT".toList := by decide
    have hp0 : 'C' ∉ 'v' :: decimal version := by
      intro hm
      rcases List.mem_cons.mp hm with h | h
      · exact absurd h (by decide)
      · have := decimal_digits version 'C' h
        revert this; decide
    rw [hsub]
    unfold replaceAll
    rw [hCA]
    have := replaceAllF_occurs_preserve 'v' (decimal version) 'C'
      "URRENT_AGENT".toList F hq0 hp0 s2.length s2 (Nat.le_refl _)
      (by rw [← hR2def]; exact h5a)
    exact this
  -- the filename occurs: CURRENT_AGENT survives passes 1 and 2, pass 3 writes F
  have hCAs1 : occursB tokCA s1 = true := by
    rw [hs1def]
    unfold replaceAll
    rw [hCA, hAV]
    exact replaceAllF_occurs_preserve 'C' "URRENT_AGENT".toList 'a'
      "gent_vN.py".toList R1 (by decide) (by decide) script.length script
      (Nat.le_refl _) (by rw [← hCA]; exact hs2)
  have hCAs2 : occursB tokCA s2 = true := by
    rw [hs2def]
    unfold replaceAll
    rw [hCA, hVN]
    exact replaceAllF_occurs_preserve 'C' "URRENT_AGENT".toList 'v' ['N'] R2
      (by decide) (by decide) s1.length s1 (Nat.le_refl _)
      (by rw [← hCA]; exact hCAs1)
  have h6 : occursB F (substituteScript script version F) = true := by
    rw [hsub]
    unfold replaceAll
    exact replaceAllF_has_rep tokCA F (by rw [hCA]; simp) s2.length s2
      (Nat.le_refl _) hCAs2
  exact ⟨h2, h3, h4, h5, h6⟩

/-- C6 counterexample: the claim quantifies over every running-program
filename F, but Python replace never rescans replacement text. With
F = "vN" the final substitution reinserts the version placeholder; with
F = "_" the filename completes a split CURRENT_AGENT occurrence. In both
runs the script contains the required placeholder tokens, yet the finalized
text still contains a placeholder token. -/
theorem substitution_cex :
    occursB tokVN
      (substituteScript "cp CURRENT_AGENT agent_vN.py".toList 2 "vN".toList) = true ∧
    occursB tokCA
      (substituteScript "CURRENTCURRENT_AGENTAGENTx vN agent_vN.py".toList 2
        "_".toList) = true := by
  refine ⟨by decide, by decide⟩

theorem substitution_correct_witness :
    occursB tokVN
      (substituteScript "cp CURRENT_AGENT agent_vN.py".toList 2 "agent.py".toList)
      = false ∧
    occursB tokAgentVN
      (substituteScript "cp CURRENT_AGENT agent_vN.py".toList 2 "agent.py".toList)
      = false ∧
    occursB tokCA
      (substituteScript "cp CURRENT_AGENT agent_vN.py".toList 2 "agent.py".toList)
      = false ∧
    occursB ('v' :: decimal 2)
      (substituteScript "cp CURRENT_AGENT agent_vN.py".toList 2 "agent.py".toList)
      = true ∧
    occursB "agent.py".toList
      (substituteScript "cp CURRENT_AGENT agent_vN.py".toList 2 "agent.py".toList)
      = true :=
  substitution_correct "cp CURRENT_AGENT agent_vN.py".toList 2 "agent.py".toList
    (by decide) (by decide) (by decide) (by decide) (by decide)

end AgentSeed
